import Mathlib

/-!
Verification of the PricePeek record-persistence core (src/main.rs).

The program keeps product-price observations in one CSV file.  We embed the
core shallowly:

* A `Row` mirrors the Rust struct `Row`; the `f64` price field is modelled as
  a rational number (the idealised real-number semantics of finite doubles;
  non-finite literals such as `inf`/`nan` are outside this model and are
  treated as parse failures).
* The CSV layer (the `csv` crate) is modelled at record granularity: a file
  is a `List (List String)` — one entry per CSV record, one `String` per
  field.  The crate's writer/reader round-trip field lists exactly (quoting
  is handled inside the crate), so this is the faithful abstraction boundary.
  One behaviour of the crate is essential and is modelled explicitly: with
  the default (non-`flexible`) reader configuration, a record whose number of
  fields differs from the number of fields of the first record of the file
  (the header) is a read error (`UnequalLengths`).
* `Row.price` is produced by Rust's `str::parse::<f64>` with
  `.unwrap_or(0.0)`; we model the finite-float grammar (optional sign,
  digits, optional fraction, optional exponent) exactly, returning the exact
  rational value.
* `format!("{:.2}", x)` is modelled as rounding `x * 100` to the nearest
  integer (ties to even, as Rust's float formatting does) and printing
  `sign digits '.' two-digits`.
-/

/-- One price observation; mirrors `struct Row` in src/main.rs. -/
structure Row where
  product : String
  category : String
  price : ℚ
  url : String
  timestamp : String
deriving DecidableEq, Repr

/-- The fixed CSV header, `const HEADER` in src/main.rs. -/
def HEADER : List String := ["product", "category", "price", "url", "timestamp"]

/-- Decimal digit test on characters (`0` through `9`). -/
def isDigitChar (c : Char) : Bool := '0' ≤ c && c ≤ '9'

/-- The character for one decimal digit. -/
def digitChar (d : Nat) : Char := Char.ofNat (48 + d)

/-- Numeric value of a big-endian digit-character list. -/
def charsToNat (cs : List Char) : Nat :=
  cs.foldl (fun a c => 10 * a + (c.toNat - 48)) 0

/-- Fuel-driven decimal rendering of a natural number (big-endian, no
rendering for 0 at this level). -/
def natToCharsAux : Nat → Nat → List Char
  | 0, _ => []
  | fuel + 1, n =>
    if n = 0 then [] else natToCharsAux fuel (n / 10) ++ [digitChar (n % 10)]

/-- Decimal rendering of a natural number. -/
def natToChars (n : Nat) : List Char :=
  if n = 0 then ['0'] else natToCharsAux n n

/-- Strip an optional leading sign; mirrors the sign handling of Rust's
`str::parse::<f64>`.  Returns `(isNegative, remainder)`. -/
def splitSign (cs : List Char) : Bool × List Char :=
  match cs with
  | [] => (false, [])
  | c :: rest =>
    if c = '-' then (true, rest)
    else if c = '+' then (false, rest)
    else (false, c :: rest)

/-- Split the mantissa of a decimal literal into integer digits, fraction
digits, and the remainder of the input. -/
def splitMantissa (cs : List Char) : List Char × List Char × List Char :=
  let ip := cs.takeWhile isDigitChar
  let r1 := cs.dropWhile isDigitChar
  match r1 with
  | '.' :: r2 => (ip, r2.takeWhile isDigitChar, r2.dropWhile isDigitChar)
  | _ => (ip, [], r1)

/-- Parse an optional exponent suffix (`e`/`E`, optional sign, digits) at the
end of a float literal; `none` on trailing garbage. -/
def parseExpTail (cs : List Char) : Option Int :=
  match cs with
  | [] => some 0
  | c :: rest =>
    if c = 'e' ∨ c = 'E' then
      let (en, r1) := splitSign rest
      let ed := r1.takeWhile isDigitChar
      if ed = [] ∨ r1.dropWhile isDigitChar ≠ [] then none
      else some (if en then -(charsToNat ed : Int) else (charsToNat ed : Int))
    else none

/-- Syntactic part of Rust's `str::parse::<f64>` on the finite-float grammar:
optional sign, digits with optional fraction (at least one digit overall),
optional exponent, nothing else.  Returns sign, integer digits, fraction
digits and exponent. -/
def floatParts (s : String) : Option (Bool × List Char × List Char × Int) :=
  let (neg, cs) := splitSign s.data
  let (ip, fp, rest) := splitMantissa cs
  if ip = [] ∧ fp = [] then none
  else
    match parseExpTail rest with
    | none => none
    | some e => some (neg, ip, fp, e)

/-- Exact rational value of a parsed float literal. -/
def partsVal (neg : Bool) (ip fp : List Char) (e : Int) : ℚ :=
  (if neg then -1 else 1) *
    ((charsToNat ip : ℚ) + (charsToNat fp : ℚ) / 10 ^ fp.length) * 10 ^ e

/-- Model of `str::parse::<f64>` (line 45/54 of src/main.rs): the exact
rational value of a finite decimal literal, `none` on parse failure. -/
def parseF64 (s : String) : Option ℚ :=
  match floatParts s with
  | none => none
  | some (neg, ip, fp, e) => some (partsVal neg ip fp e)

/-- Round a rational to the nearest integer, ties to even; the rounding used
by Rust's `{:.2}` float formatting (applied to `x * 100`). -/
def roundTiesEven (x : ℚ) : ℤ :=
  if x - ⌊x⌋ < 1 / 2 then ⌊x⌋
  else if 1 / 2 < x - ⌊x⌋ then ⌊x⌋ + 1
  else if 2 ∣ ⌊x⌋ then ⌊x⌋ else ⌊x⌋ + 1

/-- Render `k / 100` with a sign, the integer part, and exactly two fraction
digits. -/
def intToPriceString (k : Int) : String :=
  String.mk ((if k < 0 then ['-'] else []) ++ natToChars (k.natAbs / 100) ++
    '.' :: [digitChar (k.natAbs % 100 / 10), digitChar (k.natAbs % 100 % 10)])

/-- Model of `format!("{:.2}", price)` (line 74 of src/main.rs). -/
def formatPrice (q : ℚ) : String :=
  intToPriceString (roundTiesEven (q * 100))

/-- A price has at most two decimal digits: one hundred times it is an
integer.  This is the well-formedness premise of the spec's round-trip
property ("price rounded to two decimals"). -/
def twoDecimal (q : ℚ) : Prop := ∃ k : Int, q * 100 = (k : ℚ)

/-- A well-formed Record per the spec's data model: non-negative price with
at most two fraction digits. -/
def wellFormed (r : Row) : Prop := 0 ≤ r.price ∧ twoDecimal r.price

/-- Errors of the read path.  At record granularity the only error the `csv`
crate's default reader can raise is `UnequalLengths`: a record whose number
of fields differs from the first record of the file. -/
inductive ReadError where
  | unequalLengths
deriving DecidableEq, Repr

/-- Decode one CSV record into a `Row`; the two branches of `read_rows`
(lines 44-62 of src/main.rs).  A record with at least five fields uses the
current five-column layout; otherwise the legacy four-column layout applies,
with `category` set to the empty string.  A missing price cell defaults to
`"0"`, missing string cells to `""`; an unparsable price is coerced to 0. -/
def rowOfRecord (rec : List String) : Row :=
  if rec.length ≥ 5 then
    { product := rec.getD 0 ""
      category := rec.getD 1 ""
      price := (parseF64 (rec.getD 2 "0")).getD 0
      url := rec.getD 3 ""
      timestamp := rec.getD 4 "" }
  else
    { product := rec.getD 0 ""
      category := ""
      price := (parseF64 (rec.getD 1 "0")).getD 0
      url := rec.getD 2 ""
      timestamp := rec.getD 3 "" }

/-- Decode the data records of a file, enforcing the `csv` crate's
equal-field-count rule against the header's field count. -/
def read_rowsAux (expected : Nat) : List (List String) → Except ReadError (List Row)
  | [] => .ok []
  | rec :: rest =>
    if rec.length = expected then
      match read_rowsAux expected rest with
      | .ok rows => .ok (rowOfRecord rec :: rows)
      | .error e => .error e
    else .error .unequalLengths

/-- Model of `read_rows` (lines 36-65 of src/main.rs) on the contents of an
existing store file: the first record is the header (read and discarded by
the `csv` reader, but fixing the expected field count), the remaining
records decode to `Row`s. -/
def read_rowsFile : List (List String) → Except ReadError (List Row)
  | [] => .ok []
  | header :: rest => read_rowsAux header.length rest

/-- The five fields written for one `Row` (lines 71-77 of src/main.rs). -/
def encodeRow (r : Row) : List String :=
  [r.product, r.category, formatPrice r.price, r.url, r.timestamp]

/-- Model of `write_rows` (lines 67-81 of src/main.rs): truncate and write
the header record followed by one record per row. -/
def write_rowsFile (rows : List Row) : List (List String) :=
  HEADER :: rows.map encodeRow

/-- Model of `ensure_db` (lines 17-25 of src/main.rs): a missing file is
created holding only the header. -/
def ensure_db (file : Option (List (List String))) : List (List String) :=
  file.getD [HEADER]

/-- Model of `append_row` (lines 27-34 of src/main.rs): read all rows,
push the new row, rewrite the whole file. -/
def append_row (file : List (List String)) (r : Row) :
    Except ReadError (List (List String)) :=
  match read_rowsFile file with
  | .error e => .error e
  | .ok rows => .ok (write_rowsFile (rows ++ [r]))

/-- Errors surfaced by the delete path. -/
inductive StoreError where
  | readError
  | indexError
deriving DecidableEq, Repr

/-- Model of menu option 5 (lines 187-220 of src/main.rs): the user picks the
1-based number `n`; `n = 0` or `n` past the end is reported out of range and
the file is left untouched, otherwise entry `n - 1` is removed and the file
rewritten.  Returns the resulting file contents together with the error, if
any. -/
def deleteSel (file : List (List String)) (n : Nat) :
    List (List String) × Option StoreError :=
  match read_rowsFile file with
  | .error _ => (file, some .readError)
  | .ok rows =>
    if n = 0 ∨ n > rows.length then (file, some .indexError)
    else (write_rowsFile (rows.eraseIdx (n - 1)), none)

/-- The spec's 0-based `deleteAt(index)`, realised by the source as selection
number `index + 1`. -/
def deleteAt (file : List (List String)) (idx : Nat) :
    List (List String) × Option StoreError :=
  deleteSel file (idx + 1)

/-- ASCII case folding of one character, as used by Rust's
`eq_ignore_ascii_case`. -/
def asciiLower (c : Char) : Char :=
  if 'A' ≤ c ∧ c ≤ 'Z' then Char.ofNat (c.toNat + 32) else c

/-- Model of `str::eq_ignore_ascii_case` (line 142 of src/main.rs): equality
after ASCII case folding (non-ASCII characters compare exactly). -/
def eqIgnoreAsciiCase (a b : String) : Bool :=
  decide (a.data.map asciiLower = b.data.map asciiLower)

/-- The category filter of menu options 3 and 4 (lines 139-143 and 164-168 of
src/main.rs): an empty category keeps every row, otherwise keep the rows
whose category matches case-insensitively. -/
def filterByCategory (rows : List Row) (cat : String) : List Row :=
  if cat = "" then rows
  else rows.filter (fun r => eqIgnoreAsciiCase r.category cat)

/-- One step of Rust's `Iterator::min_by` on the price comparison
(line 147 of src/main.rs): keep the accumulator unless the new element is
strictly cheaper. -/
def minStep (x y : Row) : Row :=
  if x.price > y.price then y else x

/-- Model of `min_by` over the price comparison (line 147 of src/main.rs):
`none` on an empty sequence, otherwise the fold of `minStep` from the first
element. -/
def cheapest (rows : List Row) : Option Row :=
  match rows with
  | [] => none
  | r :: rest => some (rest.foldl minStep r)

/-- Model of menu option 4 (lines 156-185 of src/main.rs): read all rows,
filter by category (empty keeps all), and write header plus the filtered
rows to the destination file, whose resulting contents are returned. -/
def exportFiltered (file : List (List String)) (cat : String) :
    Except ReadError (List (List String)) :=
  match read_rowsFile file with
  | .error e => .error e
  | .ok rows =>
    .ok (HEADER :: (if cat = "" then rows
      else rows.filter (fun r => eqIgnoreAsciiCase r.category cat)).map encodeRow)

/-- The price cell each decode branch reads (column 2 in the five-column
layout, column 1 in the legacy layout), defaulting to `"0"`. -/
def priceCell (rec : List String) : String :=
  if rec.length ≥ 5 then rec.getD 2 "0" else rec.getD 1 "0"

/-- Digit characters evaluate back to their digit. -/
theorem toNat_digitChar (d : Nat) (h : d < 10) : (digitChar d).toNat - 48 = d := by
  interval_cases d <;> decide

/-- Digit characters pass the digit test. -/
theorem isDigitChar_digitChar (d : Nat) (h : d < 10) : isDigitChar (digitChar d) = true := by
  interval_cases d <;> decide

/-- A digit character is not a sign, a dot, or an exponent marker. -/
theorem isDigitChar_ne (c : Char) (h : isDigitChar c = true) :
    c ≠ '-' ∧ c ≠ '+' ∧ c ≠ '.' ∧ c ≠ 'e' ∧ c ≠ 'E' := by
  refine ⟨?_, ?_, ?_, ?_, ?_⟩ <;> intro he <;> subst he <;> simp [isDigitChar] at h

/-- Unfolding lemma for `charsToNat` with a general accumulator. -/
theorem charsToNat_foldl (a : Nat) (cs : List Char) :
    cs.foldl (fun a c => 10 * a + (c.toNat - 48)) a =
      a * 10 ^ cs.length + charsToNat cs := by
  induction cs generalizing a with
  | nil => simp [charsToNat]
  | cons c cs ih =>
    simp only [List.foldl_cons, charsToNat, List.length_cons]
    rw [ih (10 * a + (c.toNat - 48)), ih (10 * 0 + (c.toNat - 48))]
    ring

/-- Value of a concatenation of digit strings. -/
theorem charsToNat_append (xs ys : List Char) :
    charsToNat (xs ++ ys) = charsToNat xs * 10 ^ ys.length + charsToNat ys := by
  unfold charsToNat
  rw [List.foldl_append, charsToNat_foldl]
  rfl

/-- Value of a one-character digit string. -/
theorem charsToNat_singleton (c : Char) : charsToNat [c] = c.toNat - 48 := by
  simp [charsToNat]

/-- The fuel-driven renderer is correct whenever the fuel bounds the input. -/
theorem charsToNat_natToCharsAux (fuel n : Nat) (h : n ≤ fuel) :
    charsToNat (natToCharsAux fuel n) = n := by
  induction fuel generalizing n with
  | zero =>
    interval_cases n
    simp [natToCharsAux, charsToNat]
  | succ fuel ih =>
    by_cases hn : n = 0
    · subst hn; simp [natToCharsAux, charsToNat]
    · have hdiv : n / 10 ≤ fuel := by
        have : n / 10 < n := Nat.div_lt_self (Nat.pos_of_ne_zero hn) (by norm_num)
        omega
      rw [natToCharsAux, if_neg hn, charsToNat_append, ih _ hdiv,
        charsToNat_singleton, toNat_digitChar _ (Nat.mod_lt _ (by norm_num))]
      simp
      omega

/-- Every character the fuel-driven renderer emits is a digit. -/
theorem natToCharsAux_digits (fuel n : Nat) :
    ∀ c ∈ natToCharsAux fuel n, isDigitChar c = true := by
  induction fuel generalizing n with
  | zero => simp [natToCharsAux]
  | succ fuel ih =>
    by_cases hn : n = 0
    · subst hn; simp [natToCharsAux]
    · rw [natToCharsAux, if_neg hn]
      intro c hc
      rcases List.mem_append.mp hc with h | h
      · exact ih _ c h
      · rcases List.mem_singleton.mp h with rfl
        exact isDigitChar_digitChar _ (Nat.mod_lt _ (by norm_num))

/-- The decimal renderer is correct. -/
theorem charsToNat_natToChars (n : Nat) : charsToNat (natToChars n) = n := by
  by_cases hn : n = 0
  · subst hn; decide
  · rw [natToChars, if_neg hn]
    exact charsToNat_natToCharsAux n n le_rfl

/-- Every character of a rendered natural number is a digit. -/
theorem natToChars_digits (n : Nat) : ∀ c ∈ natToChars n, isDigitChar c = true := by
  by_cases hn : n = 0
  · subst hn; decide
  · rw [natToChars, if_neg hn]
    exact natToCharsAux_digits n n

/-- A rendered natural number is never the empty string. -/
theorem natToChars_ne_nil (n : Nat) : natToChars n ≠ [] := by
  by_cases hn : n = 0
  · subst hn; decide
  · obtain ⟨m, rfl⟩ := Nat.exists_eq_succ_of_ne_zero hn
    rw [natToChars, if_neg hn, natToCharsAux, if_neg hn]
    simp

/-- Taking digit characters stops exactly at the first non-digit. -/
theorem takeWhile_digits_append (xs : List Char) (y : Char) (ys : List Char)
    (hx : ∀ c ∈ xs, isDigitChar c = true) (hy : isDigitChar y = false) :
    (xs ++ y :: ys).takeWhile isDigitChar = xs ∧
      (xs ++ y :: ys).dropWhile isDigitChar = y :: ys := by
  induction xs with
  | nil => simp [List.takeWhile, List.dropWhile, hy]
  | cons c cs ih =>
    have hc : isDigitChar c = true := hx c (List.mem_cons_self c cs)
    have hrest : ∀ x ∈ cs, isDigitChar x = true :=
      fun x hxm => hx x (List.mem_cons_of_mem c hxm)
    obtain ⟨h1, h2⟩ := ih hrest
    constructor
    · simpa [List.takeWhile, hc] using h1
    · simpa [List.dropWhile, hc] using h2

/-- Taking digit characters from an all-digit list takes everything. -/
theorem takeWhile_digits_all (xs : List Char) (hx : ∀ c ∈ xs, isDigitChar c = true) :
    xs.takeWhile isDigitChar = xs ∧ xs.dropWhile isDigitChar = [] := by
  induction xs with
  | nil => simp
  | cons c cs ih =>
    have hc : isDigitChar c = true := hx c (List.mem_cons_self c cs)
    obtain ⟨h1, h2⟩ := ih (fun x hxm => hx x (List.mem_cons_of_mem c hxm))
    constructor
    · simpa [List.takeWhile, hc] using h1
    · simpa [List.dropWhile, hc] using h2

/-- The sign splitter is the identity on digit-initial input. -/
theorem splitSign_digit (c : Char) (cs : List Char) (h : isDigitChar c = true) :
    splitSign (c :: cs) = (false, c :: cs) := by
  obtain ⟨h1, h2, -⟩ := isDigitChar_ne c h
  simp [splitSign, h1, h2]

/-- The sign splitter strips a leading minus. -/
theorem splitSign_neg (cs : List Char) : splitSign ('-' :: cs) = (true, cs) := by
  simp [splitSign]

/-- Mantissa splitting of `digits '.' two-digits`. -/
theorem splitMantissa_digits (xs : List Char) (d1 d2 : Char)
    (hx : ∀ c ∈ xs, isDigitChar c = true)
    (h1 : isDigitChar d1 = true) (h2 : isDigitChar d2 = true) :
    splitMantissa (xs ++ '.' :: [d1, d2]) = (xs, [d1, d2], []) := by
  obtain ⟨ht, hd⟩ := takeWhile_digits_append xs '.' [d1, d2] hx (by decide)
  have hfp : ∀ c ∈ [d1, d2], isDigitChar c = true := by
    intro c hc
    rcases List.mem_cons.mp hc with rfl | hc
    · exact h1
    · rcases List.mem_singleton.mp hc with rfl
      exact h2
  obtain ⟨ht2, hd2⟩ := takeWhile_digits_all [d1, d2] hfp
  simp only [splitMantissa, ht, hd, ht2, hd2]

/-- Syntactic parse of a rendered price body with explicit sign. -/
theorem floatParts_body (neg : Bool) (xs : List Char) (d1 d2 : Char)
    (hne : xs ≠ []) (hx : ∀ c ∈ xs, isDigitChar c = true)
    (h1 : isDigitChar d1 = true) (h2 : isDigitChar d2 = true) :
    floatParts (String.mk ((if neg then ['-'] else []) ++ xs ++ '.' :: [d1, d2])) =
      some (neg, xs, [d1, d2], 0) := by
  have hdata : (String.mk ((if neg then ['-'] else []) ++ xs ++ '.' :: [d1, d2])).data =
      (if neg then ['-'] else []) ++ xs ++ '.' :: [d1, d2] := rfl
  have hsm := splitMantissa_digits xs d1 d2 hx h1 h2
  cases neg with
  | true =>
    simp [floatParts, hdata, List.singleton_append, List.cons_append,
      splitSign_neg, hsm, parseExpTail, hne]
  | false =>
    obtain ⟨c, cs, rfl⟩ : ∃ c cs, xs = c :: cs := by
      cases xs with
      | nil => exact absurd rfl hne
      | cons c cs => exact ⟨c, cs, rfl⟩
    have hc : isDigitChar c = true := hx c (List.mem_cons_self c cs)
    rw [List.cons_append] at hsm
    simp [floatParts, hdata, List.nil_append, List.cons_append,
      splitSign_digit c _ hc, hsm, parseExpTail]

/-- Syntactic parse of a rendered price. -/
theorem floatParts_intToPriceString (k : Int) :
    floatParts (intToPriceString k) =
      some (decide (k < 0), natToChars (k.natAbs / 100),
        [digitChar (k.natAbs % 100 / 10), digitChar (k.natAbs % 100 % 10)], 0) := by
  have h1 : isDigitChar (digitChar (k.natAbs % 100 / 10)) = true :=
    isDigitChar_digitChar _ (by omega)
  have h2 : isDigitChar (digitChar (k.natAbs % 100 % 10)) = true :=
    isDigitChar_digitChar _ (Nat.mod_lt _ (by norm_num))
  by_cases hk : k < 0
  · have hb := floatParts_body true (natToChars (k.natAbs / 100)) _ _
      (natToChars_ne_nil _) (natToChars_digits _) h1 h2
    simpa [intToPriceString, hk] using hb
  · have hb := floatParts_body false (natToChars (k.natAbs / 100)) _ _
      (natToChars_ne_nil _) (natToChars_digits _) h1 h2
    simpa [intToPriceString, hk] using hb

/-- Semantic value of a rendered price: exactly `k / 100`. -/
theorem partsVal_price (k : Int) :
    partsVal (decide (k < 0)) (natToChars (k.natAbs / 100))
      [digitChar (k.natAbs % 100 / 10), digitChar (k.natAbs % 100 % 10)] 0 =
      (k : ℚ) / 100 := by
  have hv1 : charsToNat (natToChars (k.natAbs / 100)) = k.natAbs / 100 :=
    charsToNat_natToChars _
  have hv2 : charsToNat [digitChar (k.natAbs % 100 / 10), digitChar (k.natAbs % 100 % 10)] =
      k.natAbs % 100 := by
    simp only [charsToNat, List.foldl_cons, List.foldl_nil]
    rw [toNat_digitChar _ (by omega), toNat_digitChar _ (Nat.mod_lt _ (by norm_num))]
    omega
  have hdm : (100 : ℚ) * ((k.natAbs / 100 : Nat) : ℚ) + ((k.natAbs % 100 : Nat) : ℚ) =
      ((k.natAbs : Nat) : ℚ) := by
    exact_mod_cast Nat.div_add_mod k.natAbs 100
  unfold partsVal
  rw [hv1, hv2]
  by_cases hk : k < 0
  · have habs : ((k.natAbs : Nat) : ℚ) = -(k : ℚ) := by
      rw [Int.cast_natAbs]
      exact_mod_cast abs_of_neg hk
    simp only [decide_eq_true_eq, hk, if_true, zpow_zero, List.length_cons,
      List.length_nil, Nat.zero_add, Nat.reduceAdd]
    rw [show ((10 : ℚ) ^ (2 : Nat)) = 100 by norm_num]
    field_simp
    linarith [hdm, habs]
  · have habs : ((k.natAbs : Nat) : ℚ) = (k : ℚ) := by
      rw [Int.cast_natAbs]
      exact_mod_cast abs_of_nonneg (not_lt.mp hk)
    simp only [decide_eq_true_eq, hk, if_false, zpow_zero, List.length_cons,
      List.length_nil, Nat.zero_add, Nat.reduceAdd]
    rw [show ((10 : ℚ) ^ (2 : Nat)) = 100 by norm_num]
    field_simp
    linarith [hdm, habs]

/-- Tie-to-even rounding is the identity on integers. -/
theorem roundTiesEven_intCast (n : Int) : roundTiesEven (n : ℚ) = n := by
  unfold roundTiesEven
  rw [Int.floor_intCast]
  norm_num

/-- Decoding inverts encoding on prices with at most two decimal digits: the
stored two-digit rendering parses back to the exact price. -/
theorem parseF64_formatPrice (q : ℚ) (h : twoDecimal q) :
    parseF64 (formatPrice q) = some q := by
  obtain ⟨k, hk⟩ := h
  have hfmt : formatPrice q = intToPriceString k := by
    rw [formatPrice, hk, roundTiesEven_intCast]
  rw [hfmt]
  simp only [parseF64, floatParts_intToPriceString, partsVal_price]
  have hq : (k : ℚ) = q * 100 := hk.symm
  rw [hq]
  norm_num

/-- Decoding succeeds on a file whose records all match the header's field
count, and decodes record-wise. -/
theorem read_rowsFile_ok (header : List String) (recs : List (List String))
    (h : ∀ Rec ∈ recs, Rec.length = header.length) :
    read_rowsFile (header :: recs) = .ok (recs.map rowOfRecord) := by
  show read_rowsAux header.length recs = _
  induction recs with
  | nil => rfl
  | cons rec rest ih =>
    have h1 : rec.length = header.length := h rec (List.mem_cons_self rec rest)
    have h2 : ∀ Rec ∈ rest, Rec.length = header.length :=
      fun x hx => h x (List.mem_cons_of_mem rec hx)
    rw [read_rowsAux, if_pos h1, ih h2]
    simp

/-- Decoding a record written by `encodeRow` recovers the row, provided the
price has at most two decimal digits. -/
theorem rowOfRecord_encodeRow (r : Row) (h : twoDecimal r.price) :
    rowOfRecord (encodeRow r) = r := by
  have hp := parseF64_formatPrice r.price h
  simp [rowOfRecord, encodeRow, List.getD, hp]

/-- Writing then reading recovers the rows, provided every price has at most
two decimal digits. -/
theorem read_write_rows (rows : List Row) (h : ∀ r ∈ rows, twoDecimal r.price) :
    read_rowsFile (write_rowsFile rows) = .ok rows := by
  rw [write_rowsFile, read_rowsFile_ok HEADER (rows.map encodeRow)
    (by intro Rec hRec; obtain ⟨r, hr, rfl⟩ := List.mem_map.mp hRec; rfl)]
  congr 1
  rw [List.map_map]
  calc rows.map (rowOfRecord ∘ encodeRow) = rows.map id :=
        List.map_congr_left (fun r hr => rowOfRecord_encodeRow r (h r hr))
    _ = rows := List.map_id rows

/-- A successful decode determines the file's shape: the rows are the
record-wise decodings and every record matches the expected field count. -/
theorem read_rowsAux_ok_shape (expected : Nat) (recs : List (List String))
    (rows : List Row) (h : read_rowsAux expected recs = .ok rows) :
    rows = recs.map rowOfRecord ∧ ∀ Rec ∈ recs, Rec.length = expected := by
  induction recs generalizing rows with
  | nil =>
    simp only [read_rowsAux] at h
    cases h
    simp
  | cons rec rest ih =>
    rw [read_rowsAux] at h
    by_cases hlen : rec.length = expected
    · rw [if_pos hlen] at h
      cases hrest : read_rowsAux expected rest with
      | ok rows' =>
        rw [hrest] at h
        cases h
        obtain ⟨h1, h2⟩ := ih rows' hrest
        subst h1
        refine ⟨by simp, ?_⟩
        intro Rec hRec
        rcases List.mem_cons.mp hRec with rfl | hRec
        · exact hlen
        · exact h2 Rec hRec
      | error e => rw [hrest] at h; cases h
    · rw [if_neg hlen] at h
      cases h

/-- Removing the entry at a position splits the list around it. -/
theorem eraseIdx_eq_take_append_drop {α : Type} (l : List α) (i : Nat) :
    l.eraseIdx i = l.take i ++ l.drop (i + 1) := by
  induction l generalizing i with
  | nil => simp [List.eraseIdx]
  | cons a l ih =>
    cases i with
    | zero => simp [List.eraseIdx]
    | succ i => simp [List.eraseIdx, ih i]

/-- Folding `minStep` either keeps the accumulator (when it is no more
expensive than every element) or lands on the first element strictly cheaper
than the accumulator and everything before it, and no more expensive than
everything after it. -/
theorem foldl_minStep_decomp (ys : List Row) (x : Row) :
    (ys.foldl minStep x = x ∧ ∀ y ∈ ys, x.price ≤ y.price) ∨
    (∃ l1 r l2, ys = l1 ++ r :: l2 ∧ ys.foldl minStep x = r ∧ r.price < x.price ∧
      (∀ y ∈ l1, r.price < y.price) ∧ (∀ y ∈ l2, r.price ≤ y.price)) := by
  induction ys generalizing x with
  | nil => left; exact ⟨rfl, by simp⟩
  | cons y ys ih =>
    rw [List.foldl_cons]
    by_cases hxy : x.price > y.price
    · rw [show minStep x y = y from if_pos hxy]
      rcases ih y with ⟨heq, hall⟩ | ⟨l1, r, l2, hys, heq, hlt, h1, h2⟩
      · right
        exact ⟨[], y, ys, by simp, heq, hxy, by simp, hall⟩
      · right
        refine ⟨y :: l1, r, l2, by rw [hys, List.cons_append], heq,
          lt_trans hlt hxy, ?_, h2⟩
        intro z hz
        rcases List.mem_cons.mp hz with rfl | hz
        · exact hlt
        · exact h1 z hz
    · rw [show minStep x y = x from if_neg hxy]
      have hxle : x.price ≤ y.price := not_lt.mp hxy
      rcases ih x with ⟨heq, hall⟩ | ⟨l1, r, l2, hys, heq, hlt, h1, h2⟩
      · left
        refine ⟨heq, ?_⟩
        intro z hz
        rcases List.mem_cons.mp hz with rfl | hz
        · exact hxle
        · exact hall z hz
      · right
        refine ⟨y :: l1, r, l2, by rw [hys, List.cons_append], heq, hlt, ?_, h2⟩
        intro z hz
        rcases List.mem_cons.mp hz with rfl | hz
        · exact lt_of_lt_of_le hlt hxle
        · exact h1 z hz

/-- The decoded price of any record is the parse-or-zero of its price cell. -/
theorem rowOfRecord_price (rec : List String) :
    (rowOfRecord rec).price = (parseF64 (priceCell rec)).getD 0 := by
  by_cases h : rec.length ≥ 5
  · rw [rowOfRecord, if_pos h, priceCell, if_pos h]
  · rw [rowOfRecord, if_neg h, priceCell, if_neg h]

/-- The literal `"0"` parses to zero. -/
theorem parseF64_zero_lit : parseF64 "0" = some 0 := by
  have hfp : floatParts "0" = some (false, ['0'], [], 0) := by decide
  rw [parseF64, hfp]
  unfold partsVal
  norm_num [charsToNat]
  decide

/-- The price cell is either a real cell of the record or the default
`"0"`. -/
theorem priceCell_mem_or_default (rec : List String) :
    priceCell rec ∈ rec ∨ priceCell rec = "0" := by
  unfold priceCell
  by_cases h : rec.length ≥ 5
  · rw [if_pos h]
    left
    have h2 : 2 < rec.length := by omega
    rw [List.getD_eq_getElem _ _ h2]
    exact List.getElem_mem h2
  · rw [if_neg h]
    by_cases h1 : 1 < rec.length
    · left
      rw [List.getD_eq_getElem _ _ h1]
      exact List.getElem_mem h1
    · right
      exact List.getD_eq_default _ _ (by omega)

/-- C1 (amended): in a file whose records all carry exactly four fields — in
particular a wholly legacy file, whose header record also has four fields —
every stored data line decodes to a Record with category equal to the empty
string, product from column 0, price from column 1 (parse-or-zero), url from
column 2 and timestamp from column 3.  (As originally stated the claim fails:
see the counterexample, a four-field line under the canonical five-field
header, which the csv reader rejects with UnequalLengths.) -/
theorem read_rows_legacy_file (header : List String) (recs : List (List String))
    (hh : header.length = 4) (hr : ∀ Rec ∈ recs, Rec.length = 4) :
    read_rowsFile (header :: recs) =
      .ok (recs.map (fun Rec =>
        ⟨Rec.getD 0 "", "", (parseF64 (Rec.getD 1 "0")).getD 0,
          Rec.getD 2 "", Rec.getD 3 ""⟩)) := by
  rw [read_rowsFile_ok header recs (fun Rec hRec => by rw [hr Rec hRec, hh])]
  congr 1
  apply List.map_congr_left
  intro Rec hRec
  have h4 : Rec.length = 4 := hr Rec hRec
  rw [rowOfRecord, if_neg (by omega)]

/-- Witness for C1's amended theorem at a concrete legacy file. -/
theorem read_rows_legacy_file_witness :
    (["product", "price", "url", "timestamp"] : List String).length = 4 ∧
    (∀ Rec ∈ ([["milk", "1.50", "u", "t"]] : List (List String)), Rec.length = 4) ∧
    read_rowsFile [["product", "price", "url", "timestamp"], ["milk", "1.50", "u", "t"]] =
      .ok (([["milk", "1.50", "u", "t"]] : List (List String)).map (fun Rec =>
        ⟨Rec.getD 0 "", "", (parseF64 (Rec.getD 1 "0")).getD 0,
          Rec.getD 2 "", Rec.getD 3 ""⟩)) :=
  ⟨rfl, by decide, read_rows_legacy_file _ _ rfl (by decide)⟩

/-- C1 counterexample: under the canonical five-field header, a hand-written
four-field legacy data line makes the whole decode fail (the csv crate's
default reader rejects records whose field count differs from the header's),
so the line does not decode to any Record. -/
theorem read_rows_mixed_file_error :
    read_rowsFile [["product", "category", "price", "url", "timestamp"],
      ["milk", "1.50", "http://example.com", "2024-05-01T12:00:00Z"]] =
      .error ReadError.unequalLengths := rfl

/-- C2: for every sequence of well-formed Records (non-negative price with at
most two decimal digits), decoding the text produced by encoding the
sequence yields the same sequence: decode (encode rows) = ok rows. -/
theorem decode_encode_roundTrip (rows : List Row) (h : ∀ r ∈ rows, wellFormed r) :
    read_rowsFile (write_rowsFile rows) = .ok rows :=
  read_write_rows rows (fun r hr => (h r hr).2)

/-- Witness for C2 at a concrete one-record sequence. -/
theorem decode_encode_roundTrip_witness :
    (∀ r ∈ ([⟨"A", "Snacks", 5, "u", "t"⟩] : List Row), wellFormed r) ∧
    read_rowsFile (write_rowsFile [(⟨"A", "Snacks", 5, "u", "t"⟩ : Row)]) =
      .ok [(⟨"A", "Snacks", 5, "u", "t"⟩ : Row)] := by
  have hw : ∀ r ∈ ([⟨"A", "Snacks", 5, "u", "t"⟩] : List Row), wellFormed r := by
    intro r hr
    rcases List.mem_singleton.mp hr with rfl
    exact ⟨by norm_num, 500, by norm_num⟩
  exact ⟨hw, decode_encode_roundTrip _ hw⟩

/-- C4 (amended): decoded prices are always finite rationals and a price cell
that fails to parse is coerced to zero, but a cell that parses to a negative
number is kept negative (see the counterexample), so non-negativity only
holds when every cell of the file parses-or-defaults to a non-negative
value. -/
theorem read_rows_price_nonneg (file : List (List String)) (rows : List Row)
    (hok : read_rowsFile file = .ok rows)
    (hcells : ∀ Rec ∈ file, ∀ cell ∈ Rec, 0 ≤ ((parseF64 cell).getD 0 : ℚ)) :
    ∀ r ∈ rows, 0 ≤ r.price := by
  cases file with
  | nil =>
    simp only [read_rowsFile, Except.ok.injEq] at hok
    subst hok
    simp
  | cons header rest =>
    obtain ⟨hrows, -⟩ := read_rowsAux_ok_shape header.length rest rows hok
    subst hrows
    intro r hr
    obtain ⟨Rec, hRec, rfl⟩ := List.mem_map.mp hr
    rw [rowOfRecord_price]
    rcases priceCell_mem_or_default Rec with hmem | hdef
    · exact hcells Rec (List.mem_cons_of_mem header hRec) _ hmem
    · rw [hdef, parseF64_zero_lit]
      norm_num

/-- Witness for C4's amended theorem at a file whose cells are all
non-numeric (each parses-or-defaults to zero). -/
theorem read_rows_price_nonneg_witness :
    read_rowsFile [["product", "category", "price", "url", "timestamp"],
        ["p", "c", "x", "u", "t"]] =
      .ok [(⟨"p", "c", 0, "u", "t"⟩ : Row)] ∧
    (∀ Rec ∈ ([["product", "category", "price", "url", "timestamp"],
        ["p", "c", "x", "u", "t"]] : List (List String)),
      ∀ cell ∈ Rec, 0 ≤ ((parseF64 cell).getD 0 : ℚ)) ∧
    (∀ r ∈ ([⟨"p", "c", 0, "u", "t"⟩] : List Row), 0 ≤ r.price) :=
  ⟨rfl, by decide,
    read_rows_price_nonneg
      [["product", "category", "price", "url", "timestamp"], ["p", "c", "x", "u", "t"]]
      [(⟨"p", "c", 0, "u", "t"⟩ : Row)] rfl (by decide)⟩

/-- C4 counterexample: the stored cell `"-1"` parses successfully, so decode
keeps the negative price; decoded prices are not always non-negative. -/
theorem read_rows_negative_price :
    read_rowsFile [["product", "category", "price", "url", "timestamp"],
        ["pen", "office", "-1", "u", "t"]] =
      .ok [(⟨"pen", "office", -1, "u", "t"⟩ : Row)] ∧
    ((⟨"pen", "office", -1, "u", "t"⟩ : Row)).price < 0 := by
  have hfp : floatParts "-1" = some (true, ['1'], [], 0) := by decide
  have hparse : parseF64 "-1" = some (-1) := by
    rw [parseF64, hfp]
    unfold partsVal
    norm_num [charsToNat]
    decide
  constructor
  · rw [read_rowsFile_ok _ _ (by decide)]
    simp [rowOfRecord, List.getD, hparse]
  · norm_num

/-- C5: a data line whose price cell does not parse as a decimal number never
makes decode fail; the whole file still decodes (given consistent field
counts) and that line's Record gets price 0. -/
theorem bad_price_cell_coerced (header : List String) (recs : List (List String))
    (i : Nat) (hlen : ∀ Rec ∈ recs, Rec.length = header.length)
    (hi : i < recs.length)
    (hbad : parseF64 (priceCell (recs.get ⟨i, hi⟩)) = none) :
    read_rowsFile (header :: recs) = .ok (recs.map rowOfRecord) ∧
    (recs.map rowOfRecord)[i]? = some (rowOfRecord (recs.get ⟨i, hi⟩)) ∧
    (rowOfRecord (recs.get ⟨i, hi⟩)).price = 0 := by
  refine ⟨read_rowsFile_ok header recs hlen, ?_, ?_⟩
  · rw [List.getElem?_map, List.getElem?_eq_getElem hi]
    simp [List.get_eq_getElem]
  · rw [rowOfRecord_price, hbad]
    rfl

/-- Witness for C5 at a concrete file with price cell `"abc"`. -/
theorem bad_price_cell_coerced_witness :
    parseF64 (priceCell (["p", "c", "abc", "u", "t"] : List String)) = none ∧
    (read_rowsFile (HEADER :: [["p", "c", "abc", "u", "t"]]) =
        .ok (([["p", "c", "abc", "u", "t"]] : List (List String)).map rowOfRecord) ∧
      (([["p", "c", "abc", "u", "t"]] : List (List String)).map rowOfRecord)[0]? =
        some (rowOfRecord (([["p", "c", "abc", "u", "t"]] :
          List (List String)).get ⟨0, by norm_num⟩)) ∧
      (rowOfRecord (([["p", "c", "abc", "u", "t"]] :
        List (List String)).get ⟨0, by norm_num⟩)).price = 0) :=
  ⟨by decide, bad_price_cell_coerced HEADER _ 0 (by decide) (by norm_num) (by decide)⟩

/-- C3: on a non-empty sequence, `cheapest` returns a Record of minimum
price, and it is the first such Record in sequence order: the input splits
as l1 ++ r :: l2 where the result r is strictly cheaper than everything
before it and no more expensive than everything after it (hence a stable
minimum). -/
theorem cheapest_first_min (rows : List Row) (h : rows ≠ []) :
    ∃ l1 r l2, rows = l1 ++ r :: l2 ∧ cheapest rows = some r ∧
      (∀ y ∈ l1, r.price < y.price) ∧ (∀ y ∈ l2, r.price ≤ y.price) ∧
      (∀ y ∈ rows, r.price ≤ y.price) := by
  obtain ⟨x, ys, rfl⟩ := List.exists_cons_of_ne_nil h
  rw [cheapest]
  rcases foldl_minStep_decomp ys x with ⟨heq, hall⟩ | ⟨l1, r, l2, hys, heq, hlt, h1, h2⟩
  · refine ⟨[], x, ys, by simp, by rw [heq], by simp, hall, ?_⟩
    intro y hy
    rcases List.mem_cons.mp hy with rfl | hy
    · exact le_rfl
    · exact hall y hy
  · refine ⟨x :: l1, r, l2, by rw [hys, List.cons_append], by rw [heq], ?_, h2, ?_⟩
    · intro y hy
      rcases List.mem_cons.mp hy with rfl | hy
      · exact hlt
      · exact h1 y hy
    · intro y hy
      subst hys
      rcases List.mem_cons.mp hy with rfl | hy
      · exact le_of_lt hlt
      · rcases List.mem_append.mp hy with hy | hy
        · exact le_of_lt (h1 y hy)
        · rcases List.mem_cons.mp hy with rfl | hy
          · exact le_rfl
          · exact h2 y hy

/-- Witness for C3 at the spec's tie-break example: two records of equal
price. -/
theorem cheapest_first_min_witness :
    ([⟨"A", "cat", 5, "u", "t"⟩, ⟨"B", "cat", 5, "u", "t"⟩] : List Row) ≠ [] ∧
    (∃ l1 r l2,
      ([⟨"A", "cat", 5, "u", "t"⟩, ⟨"B", "cat", 5, "u", "t"⟩] : List Row) =
        l1 ++ r :: l2 ∧
      cheapest [⟨"A", "cat", 5, "u", "t"⟩, ⟨"B", "cat", 5, "u", "t"⟩] = some r ∧
      (∀ y ∈ l1, r.price < y.price) ∧ (∀ y ∈ l2, r.price ≤ y.price) ∧
      (∀ y ∈ ([⟨"A", "cat", 5, "u", "t"⟩, ⟨"B", "cat", 5, "u", "t"⟩] : List Row),
        r.price ≤ y.price)) :=
  ⟨by simp, cheapest_first_min _ (by simp)⟩

/-- C6: filtering by the empty category is the identity; filtering by a
non-empty category keeps, in their original order (a sublist of the input),
exactly the rows whose category equals the filter after ASCII case
folding. -/
theorem filterByCategory_spec (rows : List Row) (cat : String) (h : cat ≠ "") :
    filterByCategory rows "" = rows ∧
    (filterByCategory rows cat).Sublist rows ∧
    (∀ r : Row, r ∈ filterByCategory rows cat ↔
      r ∈ rows ∧ r.category.data.map asciiLower = cat.data.map asciiLower) := by
  refine ⟨by rw [filterByCategory, if_pos rfl], ?_, ?_⟩
  · rw [filterByCategory, if_neg h]
    exact List.filter_sublist _
  · intro r
    rw [filterByCategory, if_neg h, List.mem_filter]
    simp [eqIgnoreAsciiCase]

/-- Witness for C6: filtering by "Snacks" keeps the rows stored as "snacks"
and "SNACKS". -/
theorem filterByCategory_spec_witness :
    ("Snacks" : String) ≠ "" ∧
    (filterByCategory [⟨"A", "snacks", 0, "u", "t"⟩, ⟨"B", "drinks", 0, "u", "t"⟩,
        ⟨"C", "SNACKS", 0, "u", "t"⟩] "" =
      [⟨"A", "snacks", 0, "u", "t"⟩, ⟨"B", "drinks", 0, "u", "t"⟩,
        ⟨"C", "SNACKS", 0, "u", "t"⟩] ∧
    (filterByCategory [⟨"A", "snacks", 0, "u", "t"⟩, ⟨"B", "drinks", 0, "u", "t"⟩,
        ⟨"C", "SNACKS", 0, "u", "t"⟩] "Snacks").Sublist
      [⟨"A", "snacks", 0, "u", "t"⟩, ⟨"B", "drinks", 0, "u", "t"⟩,
        ⟨"C", "SNACKS", 0, "u", "t"⟩] ∧
    (∀ r : Row, r ∈ filterByCategory [⟨"A", "snacks", 0, "u", "t"⟩,
        ⟨"B", "drinks", 0, "u", "t"⟩, ⟨"C", "SNACKS", 0, "u", "t"⟩] "Snacks" ↔
      r ∈ ([⟨"A", "snacks", 0, "u", "t"⟩, ⟨"B", "drinks", 0, "u", "t"⟩,
        ⟨"C", "SNACKS", 0, "u", "t"⟩] : List Row) ∧
      r.category.data.map asciiLower = ("Snacks" : String).data.map asciiLower)) :=
  ⟨by decide, filterByCategory_spec _ "Snacks" (by decide)⟩

/-- C7: with a decodable store of n rows, deleting at a 0-based index outside
[0, n) reports the index error and leaves the file unchanged; deleting at an
index inside [0, n) removes exactly that row, keeping all others in their
original relative order, and rewrites the file. -/
theorem deleteAt_spec (file : List (List String)) (rows : List Row) (idx : Nat)
    (h : read_rowsFile file = .ok rows) :
    (rows.length ≤ idx → deleteAt file idx = (file, some StoreError.indexError)) ∧
    (idx < rows.length →
      deleteAt file idx =
        (write_rowsFile (rows.take idx ++ rows.drop (idx + 1)), none)) := by
  constructor
  · intro hge
    unfold deleteAt deleteSel
    rw [h]
    dsimp only
    rw [if_pos (Or.inr (by omega : idx + 1 > rows.length))]
  · intro hlt
    unfold deleteAt deleteSel
    rw [h]
    dsimp only
    rw [if_neg (by omega : ¬(idx + 1 = 0 ∨ idx + 1 > rows.length)),
      show idx + 1 - 1 = idx from rfl, eraseIdx_eq_take_append_drop]

/-- Witness for C7 at a concrete two-row store: index 2 is out of range and
leaves the store unchanged, index 0 removes exactly the first row. -/
theorem deleteAt_spec_witness :
    read_rowsFile [["product", "category", "price", "url", "timestamp"],
        ["a", "c", "x", "u", "t"], ["b", "d", "y", "u", "t"]] =
      .ok [(⟨"a", "c", 0, "u", "t"⟩ : Row), (⟨"b", "d", 0, "u", "t"⟩ : Row)] ∧
    deleteAt [["product", "category", "price", "url", "timestamp"],
        ["a", "c", "x", "u", "t"], ["b", "d", "y", "u", "t"]] 2 =
      ([["product", "category", "price", "url", "timestamp"],
        ["a", "c", "x", "u", "t"], ["b", "d", "y", "u", "t"]],
        some StoreError.indexError) ∧
    deleteAt [["product", "category", "price", "url", "timestamp"],
        ["a", "c", "x", "u", "t"], ["b", "d", "y", "u", "t"]] 0 =
      (write_rowsFile
        (([⟨"a", "c", 0, "u", "t"⟩, ⟨"b", "d", 0, "u", "t"⟩] : List Row).take 0 ++
         ([⟨"a", "c", 0, "u", "t"⟩, ⟨"b", "d", 0, "u", "t"⟩] : List Row).drop 1),
        none) :=
  ⟨rfl,
    (deleteAt_spec [["product", "category", "price", "url", "timestamp"],
        ["a", "c", "x", "u", "t"], ["b", "d", "y", "u", "t"]]
      [⟨"a", "c", 0, "u", "t"⟩, ⟨"b", "d", 0, "u", "t"⟩] 2 rfl).1 (by norm_num),
    (deleteAt_spec [["product", "category", "price", "url", "timestamp"],
        ["a", "c", "x", "u", "t"], ["b", "d", "y", "u", "t"]]
      [⟨"a", "c", 0, "u", "t"⟩, ⟨"b", "d", 0, "u", "t"⟩] 0 rfl).2 (by norm_num)⟩

/-- C8: appending R1 then R2 (each a well-formed Record) to an empty store
via the load-then-rewrite append path succeeds, and a subsequent load
returns exactly [R1, R2] in insertion order. -/
theorem append_two_roundTrip (r1 r2 : Row) (h1 : wellFormed r1) (h2 : wellFormed r2) :
    ∃ f1 f2, append_row (ensure_db none) r1 = .ok f1 ∧ append_row f1 r2 = .ok f2 ∧
      read_rowsFile f2 = .ok [r1, r2] := by
  have e0 : read_rowsFile (ensure_db none) = .ok ([] : List Row) := rfl
  have e1 : read_rowsFile (write_rowsFile [r1]) = .ok [r1] :=
    read_write_rows [r1] (by
      intro r hr
      rcases List.mem_singleton.mp hr with rfl
      exact h1.2)
  refine ⟨write_rowsFile [r1], write_rowsFile [r1, r2], ?_, ?_, ?_⟩
  · unfold append_row
    rw [e0]
    dsimp only
    simp
  · unfold append_row
    rw [e1]
    simp
  · exact read_write_rows [r1, r2] (by
      intro r hr
      rcases List.mem_cons.mp hr with rfl | hr
      · exact h1.2
      · rcases List.mem_singleton.mp hr with rfl
        exact h2.2)

/-- Witness for C8 at two concrete records. -/
theorem append_two_roundTrip_witness :
    wellFormed (⟨"A", "c", 5, "u", "t"⟩ : Row) ∧
    wellFormed (⟨"B", "d", 3, "v", "s"⟩ : Row) ∧
    (∃ f1 f2, append_row (ensure_db none) (⟨"A", "c", 5, "u", "t"⟩ : Row) = .ok f1 ∧
      append_row f1 (⟨"B", "d", 3, "v", "s"⟩ : Row) = .ok f2 ∧
      read_rowsFile f2 =
        .ok [(⟨"A", "c", 5, "u", "t"⟩ : Row), (⟨"B", "d", 3, "v", "s"⟩ : Row)]) :=
  ⟨⟨by norm_num, 500, by norm_num⟩, ⟨by norm_num, 300, by norm_num⟩,
    append_two_roundTrip _ _ ⟨by norm_num, 500, by norm_num⟩
      ⟨by norm_num, 300, by norm_num⟩⟩

/-- C9: the encoded file starts with the one header record carrying exactly
the five field names product, category, price, url, timestamp in that order,
followed by one record per Row with the fields in that same order, and every
formatted price ends in a decimal point followed by exactly two digits (the
part before the point contains no decimal point). -/
theorem write_rows_shape (rows : List Row) :
    (write_rowsFile rows)[0]? =
      some ["product", "category", "price", "url", "timestamp"] ∧
    (write_rowsFile rows).length = rows.length + 1 ∧
    (∀ i : Fin rows.length, (write_rowsFile rows)[(i : Nat) + 1]? =
      some [(rows.get i).product, (rows.get i).category,
        formatPrice (rows.get i).price, (rows.get i).url, (rows.get i).timestamp]) ∧
    (∀ q : ℚ, ∃ a d1 d2, (formatPrice q).data = a ++ '.' :: [d1, d2] ∧
      '.' ∉ a ∧ isDigitChar d1 = true ∧ isDigitChar d2 = true) := by
  refine ⟨by simp [write_rowsFile, HEADER], by simp [write_rowsFile], ?_, ?_⟩
  · intro i
    rw [write_rowsFile, List.getElem?_cons_succ, List.getElem?_map,
      List.getElem?_eq_getElem i.isLt]
    simp [encodeRow, List.get_eq_getElem]
  · intro q
    rw [formatPrice]
    set k := roundTiesEven (q * 100) with hk
    refine ⟨(if k < 0 then ['-'] else []) ++ natToChars (k.natAbs / 100),
      digitChar (k.natAbs % 100 / 10), digitChar (k.natAbs % 100 % 10),
      ?_, ?_, ?_, ?_⟩
    · show (String.mk _).data = _
      simp [intToPriceString, List.append_assoc]
    · intro hmem
      rcases List.mem_append.mp hmem with hm | hm
      · by_cases hneg : k < 0
        · rw [if_pos hneg] at hm
          exact absurd (List.mem_singleton.mp hm) (by decide)
        · rw [if_neg hneg] at hm
          exact absurd hm (List.not_mem_nil _)
      · exact absurd (natToChars_digits _ '.' hm) (by decide)
    · exact isDigitChar_digitChar _ (by omega)
    · exact isDigitChar_digitChar _ (Nat.mod_lt _ (by norm_num))

/-- C10: exporting with a non-empty category that matches no stored Record
succeeds and writes a destination file holding only the header record. -/
theorem exportFiltered_no_match (file : List (List String)) (rows : List Row)
    (cat : String) (h : read_rowsFile file = .ok rows) (hcat : cat ≠ "")
    (hnone : ∀ r ∈ rows, eqIgnoreAsciiCase r.category cat = false) :
    exportFiltered file cat = .ok [HEADER] := by
  unfold exportFiltered
  rw [h]
  dsimp only
  rw [if_neg hcat]
  rw [List.filter_eq_nil_iff.mpr (fun r hr => by simp [hnone r hr])]
  rfl

/-- Witness for C10 at a one-row store whose category does not match the
exported category. -/
theorem exportFiltered_no_match_witness :
    read_rowsFile [["product", "category", "price", "url", "timestamp"],
        ["a", "beer", "x", "u", "t"]] =
      .ok [(⟨"a", "beer", 0, "u", "t"⟩ : Row)] ∧
    ("Snacks" : String) ≠ "" ∧
    (∀ r ∈ ([⟨"a", "beer", 0, "u", "t"⟩] : List Row),
      eqIgnoreAsciiCase r.category "Snacks" = false) ∧
    exportFiltered [["product", "category", "price", "url", "timestamp"],
        ["a", "beer", "x", "u", "t"]] "Snacks" = .ok [HEADER] :=
  ⟨rfl, by decide, by decide,
    exportFiltered_no_match [["product", "category", "price", "url", "timestamp"],
        ["a", "beer", "x", "u", "t"]]
      [(⟨"a", "beer", 0, "u", "t"⟩ : Row)] "Snacks" rfl (by decide) (by decide)⟩
